import Mathlib

/-!
Shallow embedding of the catalog engine of `script.js` (DDLC Russian
translations catalog site) and proofs of the specification claims.

Modelling conventions:
* JavaScript values are modelled by the inductive `JSValue`; JS numbers by
  `JSNum`, with the finite doubles modelled as rationals and the special
  values `NaN`, `Infinity`, `-Infinity` as their own constructors.
* JS strings are modelled as Lean `String`s, viewed as sequences of Unicode
  code points (this is exactly the view the source takes when it spreads a
  string with `[...input]`).
* `String.prototype.trim` is modelled by `jsTrim` over the common JavaScript
  whitespace code points; `toLowerCase` by `jsToLower`, covering the ASCII
  and Cyrillic letters that appear in the data this site processes.
* Host-dependent primitives that the code treats as black boxes are passed
  in as parameters: `dateParse` models `(new Date(s)).getTime()` (with `NaN`
  mapped to `none`), `localeCmp` models
  `String.prototype.localeCompare(·, 'ru', { sensitivity: 'base' })`.
* `Array.prototype.sort` is modelled by a stable insertion sort `isort`, as
  ECMAScript 2019 requires sort to be stable.  Comparator results are
  modelled at the sign level (`Int`), with the ECMAScript rule that a `NaN`
  comparator result counts as `0`.
-/

/-- Model of a JavaScript number: a finite double (as a rational), `NaN`,
`Infinity` or `-Infinity`. -/
inductive JSNum where
  | finite (q : ℚ)
  | nan
  | inf
  | ninf
deriving DecidableEq

/-- Model of an untyped JavaScript value as produced by the YAML parser. -/
inductive JSValue where
  | undefined
  | null
  | bool (b : Bool)
  | num (n : JSNum)
  | str (s : String)
  | arr (l : List JSValue)
  | obj (fields : List (String × JSValue))

/-- JavaScript truthiness of a value. -/
def jsTruthy (v : JSValue) : Bool :=
  match v with
  | .undefined => false
  | .null => false
  | .bool b => b
  | .num (.finite q) => q != 0
  | .num .nan => false
  | .num .inf => true
  | .num .ninf => true
  | .str s => s != ""
  | .arr _ => true
  | .obj _ => true

/-- The JavaScript whitespace code points recognised by our model of
`String.prototype.trim` (the ASCII whitespace characters plus NBSP and the
BOM). -/
def isJsSpace (c : Char) : Bool :=
  c = ' ' || c = '\t' || c = '\n' || c = '\r' ||
  c = '\x0b' || c = '\x0c' || c = ' ' || c = '﻿'

/-- Model of `String.prototype.trim`: drop leading and trailing whitespace
code points. -/
def jsTrim (s : String) : String :=
  String.mk (((s.toList.dropWhile isJsSpace).reverse.dropWhile isJsSpace).reverse)

/-- Lower-casing of a single character, covering ASCII `A`-`Z` and the
Cyrillic letters `А`-`Я` and `Ё` (the alphabets this site's data uses);
models `String.prototype.toLowerCase` on those code points. -/
def jsLowerChar (c : Char) : Char :=
  if 'A' ≤ c ∧ c ≤ 'Z' then Char.ofNat (c.toNat + 32)
  else if 'А' ≤ c ∧ c ≤ 'Я' then Char.ofNat (c.toNat + 32)
  else if c = 'Ё' then 'ё'
  else c

/-- Model of `String.prototype.toLowerCase`. -/
def jsToLower (s : String) : String :=
  String.mk (s.toList.map jsLowerChar)

/-- Property access `v[k]`: `undefined` on anything that is not an object
with that key (array element access by name is not used by the source). -/
def getProp (v : JSValue) (k : String) : JSValue :=
  match v with
  | .obj fields => ((fields.find? (fun p => p.1 == k)).map (fun p => p.2)).getD .undefined
  | _ => .undefined

/-- The source's `safeToString`: a string is trimmed, any other value is
replaced by the fallback (itself then trimmed). -/
def safeToString (v : JSValue) (fallback : String := "") : String :=
  jsTrim (match v with | .str s => s | _ => fallback)

/-- The source's `toArray`: falsy becomes `[]`, an array is kept, anything
else is wrapped into a one-element array. -/
def toArray (val : JSValue) : List JSValue :=
  if jsTruthy val = false then []
  else match val with
    | .arr l => l
    | _ => [val]

/-- Uppercase hexadecimal digit for a value below 16. -/
def hexDigitChar (n : Nat) : Char :=
  if n < 10 then Char.ofNat (48 + n) else Char.ofNat (55 + n)

/-- Model of `encodeURIComponent`: unreserved ASCII characters are kept,
every other byte of the UTF-8 encoding is percent-encoded. -/
def encodeURIComponent (s : String) : String :=
  String.mk ((s.toUTF8.toList.map (fun b =>
    let n := b.toNat
    let c := Char.ofNat n
    if n < 128 && (c.isAlphanum || c = '-' || c = '_' || c = '.' || c = '!' ||
        c = '~' || c = '*' || c = Char.ofNat 39 || c = '(' || c = ')')
    then [c]
    else ['%', hexDigitChar (n / 16), hexDigitChar (n % 16)])).flatten)

/-- The source's `getDriveViewUrl`. -/
def getDriveViewUrl (imageId : String) : String :=
  "https://drive.google.com/uc?export=view&id=" ++ encodeURIComponent imageId

/-- The source's `getDriveDownloadUrl`. -/
def getDriveDownloadUrl (fileId : String) : String :=
  "https://drive.google.com/uc?export=download&id=" ++ encodeURIComponent fileId

/-- Decimal value of a list of digit characters (most significant first). -/
def valOfDigits (l : List Char) : Nat :=
  l.foldl (fun a c => 10 * a + (c.toNat - 48)) 0

/-- Value of the leading run of decimal digits, `none` when there is none;
the tail after the digits is ignored, as `parseInt` does. -/
def leadingDigitsVal (cs : List Char) : Option Nat :=
  let ds := cs.takeWhile Char.isDigit
  if ds.isEmpty then none else some (valOfDigits ds)

/-- Model of `parseInt(s, 10)`: trim, optional sign, then the longest
leading run of decimal digits; `NaN` (here `none`) when there is no digit. -/
def parseIntDecimal (s : String) : Option Int :=
  match (jsTrim s).toList with
  | [] => none
  | c :: rest =>
    if c = '-' then (leadingDigitsVal rest).map (fun n => -(n : Int))
    else if c = '+' then (leadingDigitsVal rest).map (fun n => (n : Int))
    else (leadingDigitsVal (c :: rest)).map (fun n => (n : Int))

/-- Decimal digits of a natural number, most significant first; models the
decimal rendering performed by JavaScript's `String(n)` for integers. -/
def natDigits (n : Nat) : List Char :=
  if h : n < 10 then [Nat.digitChar n]
  else natDigits (n / 10) ++ [Nat.digitChar (n % 10)]
decreasing_by exact Nat.div_lt_self (by omega) (by omega)

/-- Model of `String(n)` for a non-negative integer. -/
def natDecRepr (n : Nat) : String :=
  String.mk (natDigits n)

/-- Parsing the exponent tail of a JavaScript numeric string: empty means
exponent `0`; otherwise `e`/`E`, an optional sign and at least one digit,
consuming the whole remainder. -/
def parseExpTail (cs : List Char) : Option Int :=
  match cs with
  | [] => some 0
  | c :: rest =>
    if c = 'e' ∨ c = 'E' then
      let (neg, ds) := match rest with
        | '-' :: r => (true, r)
        | '+' :: r => (false, r)
        | r => (false, r)
      if ds.isEmpty = false ∧ ds.all Char.isDigit then
        some (if neg then -(valOfDigits ds : Int) else (valOfDigits ds : Int))
      else none
    else none

/-- Value of an unsigned decimal literal `digits [. digits] [exponent]`
with at least one digit overall, `none` when the shape is not of this
form. -/
def parseDecimalCore (cs : List Char) : Option ℚ :=
  let intDigits := cs.takeWhile Char.isDigit
  let rest1 := cs.dropWhile Char.isDigit
  let withFrac : List Char × List Char :=
    match rest1 with
    | '.' :: rest2 => (rest2.takeWhile Char.isDigit, rest2.dropWhile Char.isDigit)
    | _ => ([], rest1)
  let fracDigits := withFrac.1
  let rest3 := if rest1.head? = some '.' then withFrac.2 else rest1
  if intDigits.isEmpty ∧ fracDigits.isEmpty then none
  else
    (parseExpTail rest3).map (fun e =>
      ((valOfDigits intDigits : ℚ) + (valOfDigits fracDigits : ℚ) / (10 : ℚ) ^ fracDigits.length)
        * (10 : ℚ) ^ e)

/-- Model of JavaScript `Number(s)` for a string argument (the `ToNumber`
string grammar): trim; empty means `0`; `Infinity` with optional sign;
an unsigned hexadecimal literal; otherwise an optionally signed decimal
literal; anything else is `NaN`. -/
def jsNumberOfString (s : String) : JSNum :=
  let t := jsTrim s
  if t = "" then .finite 0
  else
    let cs := t.toList
    match cs with
    | '0' :: 'x' :: rest =>
      if rest.isEmpty = false ∧ rest.all (fun c => c.isDigit || ('a' ≤ c ∧ c ≤ 'f') || ('A' ≤ c ∧ c ≤ 'F'))
      then .finite ((rest.foldl (fun a c =>
        16 * a + (if c.isDigit then c.toNat - 48 else if 'a' ≤ c then c.toNat - 87 else c.toNat - 55)) 0 : Nat) : ℚ)
      else .nan
    | _ =>
      let (neg, body) := match cs with
        | '-' :: r => (true, r)
        | '+' :: r => (false, r)
        | r => (false, r)
      if body = "Infinity".toList then (if neg then .ninf else .inf)
      else match parseDecimalCore body with
        | some q => .finite (if neg then -q else q)
        | none => .nan

/-- The source's `parseDateISO`, with the host `Date` parser abstracted as
`dateParse` (returning `none` where `getTime()` would return `NaN`). -/
def parseDateISO (dateParse : String → Option Int) (s : String) : Option Int :=
  dateParse s

/-- A normalized catalog record, as produced by the source's
`normalizeMod`.  Field names follow the source; `_haystack` is the
precomputed lower-cased search blob. -/
structure NormalizedMod where
  id : String
  name : String
  description : String
  status : String
  release_date : String
  releaseDateMs : Option Int
  original_author : String
  imageUrl : String
  downloadUrl : String
  source_url : String
  mirrors : List String
  tags : List String
  warnings : List String
  size_mb : Option ℚ
  _haystack : String
deriving DecidableEq

/-- The source's `STATUS.COMPLETED` literal. -/
def STATUS_COMPLETED : String := "Завершен"

/-- The source's `isCompletedStatus`: trim (via `safeToString` on a string)
and compare case-insensitively against the completed literal. -/
def isCompletedStatus (status : String) : Bool :=
  jsToLower (jsTrim status) == jsToLower STATUS_COMPLETED

/-- The source's `buildSearchHaystack`, applied to the normalized record:
join the non-empty ones among name, description, author and the
space-joined tags with a bar separator, then lower-case. -/
def buildSearchHaystack (name description original_author : String)
    (tags : List String) : String :=
  jsToLower (String.intercalate " | "
    (([jsTrim name, jsTrim description, jsTrim original_author,
       String.intercalate " " (tags.map jsTrim)]).filter (fun s => s != "")))

/-- The source's `normalizeMod`: reject (return `none`) when any of the six
mandatory fields is empty after coercion and trimming, otherwise build the
normalized record with derived URL, size, timestamp and haystack fields. -/
def normalizeMod (dateParse : String → Option Int) (mod : JSValue) :
    Option NormalizedMod :=
  let id := safeToString (getProp mod "id")
  let name := safeToString (getProp mod "name")
  let description := safeToString (getProp mod "description")
  let status := safeToString (getProp mod "status")
  let release_date := safeToString (getProp mod "release_date")
  let original_author := safeToString (getProp mod "original_author")
  if id = "" ∨ name = "" ∨ description = "" ∨ status = "" ∨
     release_date = "" ∨ original_author = "" then
    none
  else
    let image := safeToString (getProp mod "image")
    let image_id := safeToString (getProp mod "image_id")
    let file_id := safeToString (getProp mod "file_id")
    let drive_url := safeToString (getProp mod "drive_url")
    let source_url := safeToString (getProp mod "source_url")
    let mirrors := ((toArray (getProp mod "mirrors")).map
      (fun v => safeToString v)).filter (fun s => s != "")
    let imageUrl := if image != "" then image
      else if image_id != "" then getDriveViewUrl image_id else ""
    let downloadUrl := if drive_url != "" then drive_url
      else if file_id != "" then getDriveDownloadUrl file_id else ""
    let tags := ((toArray (getProp mod "tags")).map
      (fun v => safeToString v)).filter (fun s => s != "")
    let warnings := ((toArray (getProp mod "warnings")).map
      (fun v => safeToString v)).filter (fun s => s != "")
    let size_mb : Option ℚ :=
      match getProp mod "size_mb" with
      | .num (.finite q) => some q
      | .num _ => none
      | .str s =>
        match jsNumberOfString s with
        | .finite q => some q
        | _ => none
      | _ => none
    let releaseDateMs := parseDateISO dateParse release_date
    some {
      id := id, name := name, description := description, status := status,
      release_date := release_date, releaseDateMs := releaseDateMs,
      original_author := original_author, imageUrl := imageUrl,
      downloadUrl := downloadUrl, source_url := source_url,
      mirrors := mirrors, tags := tags, warnings := warnings,
      size_mb := size_mb,
      _haystack := buildSearchHaystack name description original_author tags }

/-- Whether a value passes the validator's
`item && typeof item === 'object'` check (in JavaScript, arrays also have
`typeof` equal to `'object'`, and `null` is excluded by the truthiness
conjunct). -/
def isObjectLike (v : JSValue) : Bool :=
  match v with
  | .obj _ => true
  | .arr _ => true
  | _ => false

/-- The candidate list of the validator: a bare array is taken as is, a
truthy value with an array-valued `mods` field contributes that field, and
any other shape yields the empty list. -/
def candidateList (data : JSValue) : List JSValue :=
  match data with
  | .arr l => l
  | _ =>
    if jsTruthy data then
      match getProp data "mods" with
      | .arr l => l
      | _ => []
    else []

/-- The loop body of `validateAndNormalizeData`: skip non-objects, skip
rejected records, skip records whose `id` has already been seen, keep the
rest in order. -/
def validateGo (dateParse : String → Option Int) :
    List JSValue → List String → List NormalizedMod
  | [], _ => []
  | item :: rest, seen =>
    if isObjectLike item then
      match normalizeMod dateParse item with
      | none => validateGo dateParse rest seen
      | some nm =>
        if seen.contains nm.id then validateGo dateParse rest seen
        else nm :: validateGo dateParse rest (nm.id :: seen)
    else validateGo dateParse rest seen

/-- The source's `validateAndNormalizeData`. -/
def validateAndNormalizeData (dateParse : String → Option Int)
    (data : JSValue) : List NormalizedMod :=
  validateGo dateParse (candidateList data) []

/-- Modelled from the spec (for the refinement statement of the validator):
the stream of successfully normalized records of a candidate list, in input
order, skipping non-object entries and rejected records. -/
def normalizeStream (dateParse : String → Option Int) (l : List JSValue) :
    List NormalizedMod :=
  l.filterMap (fun item =>
    if isObjectLike item then normalizeMod dateParse item else none)

/-- Modelled from the spec (for the refinement statement of the validator):
keep only the first record for each `id`, given the set of already-seen
ids. -/
def dedupGo : List NormalizedMod → List String → List NormalizedMod
  | [], _ => []
  | x :: xs, seen =>
    if seen.contains x.id then dedupGo xs seen
    else x :: dedupGo xs (x.id :: seen)

/-- Modelled from the spec: first-write-wins deduplication by `id`. -/
def dedupById (l : List NormalizedMod) : List NormalizedMod :=
  dedupGo l []

/-- The stats triple of the source's `calculateStats`. -/
structure Stats where
  total : Nat
  completed : Nat
  inProgress : Nat
deriving DecidableEq

/-- The source's `calculateStats`: total is the length, and each record is
counted as completed or in-progress according to `isCompletedStatus`. -/
def calculateStats (mods : List NormalizedMod) : Stats :=
  mods.foldl
    (fun st m =>
      if isCompletedStatus m.status then { st with completed := st.completed + 1 }
      else { st with inProgress := st.inProgress + 1 })
    { total := mods.length, completed := 0, inProgress := 0 }

/-- The display limits frozen in the source. -/
structure DisplayLimits where
  titleChars : Nat
  descChars : Nat
  ellipsis : String
deriving DecidableEq

/-- The source's `DISPLAY_LIMITS`. -/
def DISPLAY_LIMITS : DisplayLimits :=
  { titleChars := 64, descChars := 220, ellipsis := "…" }

/-- Result of the truncation utility. -/
structure TruncResult where
  text : String
  truncated : Bool
deriving DecidableEq

/-- Index (as an `Int`, `-1` when absent) of the last occurrence of a
character in a list of code points; models `String.prototype.lastIndexOf`
for a single-character needle. -/
def lastIndexOfChar (c : Char) : List Char → Int
  | [] => -1
  | x :: xs =>
    let r := lastIndexOfChar c xs
    if r ≥ 0 then r + 1
    else if x = c then 0 else -1

/-- UTF-16 length of a list of code points: one code unit for a BMP code
point, two (a surrogate pair) for an astral one.  JavaScript string indices
count these units. -/
def utf16Len (l : List Char) : Nat :=
  (l.map (fun c => if c.toNat < 65536 then 1 else 2)).sum

/-- The source's `truncateUnicode`: trim, spread into code points, keep the
input when it fits, otherwise cut at `maxChars` code points and, when word
preservation is on and the last space of the cut falls strictly past 60% of
the budget, back off to that space; append the ellipsis.  The source's
`sliced.lastIndexOf(' ')` is a UTF-16 code-unit index: it equals the summed
UTF-16 lengths of the code points before the last space (a space is a
single unit and no unit of a surrogate pair equals `0x20`, so the last
space as a unit is the last space as a code point).  The source's
`sliced.slice(0, lastSpace)` cuts at that unit offset, which is the
boundary immediately before the space, i.e. it keeps exactly the code
points before the last space.  The float comparison
`lastSpace > maxChars * 0.6` of the source is modelled exactly by the
integer comparison `5 * lastSpace > 3 * maxChars`. -/
def truncateUnicode (str : String) (maxChars : Nat)
    (preserveWords : Bool := true) (ellipsis : String := DISPLAY_LIMITS.ellipsis) :
    TruncResult :=
  let input := jsTrim str
  if input = "" then { text := "", truncated := false }
  else
    let codepoints := input.toList
    if codepoints.length ≤ maxChars then { text := input, truncated := false }
    else
      let sliced := codepoints.take maxChars
      let lastSpaceCp : Int := lastIndexOfChar ' ' sliced
      let lastSpace : Int :=
        if lastSpaceCp ≥ 0 then (utf16Len (sliced.take lastSpaceCp.toNat) : Int)
        else -1
      let kept :=
        if preserveWords = true ∧ 5 * lastSpace > 3 * (maxChars : Int) then
          sliced.take lastSpaceCp.toNat
        else sliced
      { text := String.mk kept ++ ellipsis, truncated := true }

/-- The query-state triple of the source. -/
structure QueryState where
  query : String
  status : String
  sort : String
deriving DecidableEq

/-- The source's `DEFAULTS`. -/
def DEFAULTS : QueryState :=
  { query := "", status := "all", sort := "date_desc" }

/-- The `date_desc` comparator of the source, at sign level: it returns
`bms - ams` with a null timestamp replaced by `-Infinity`; two nulls give
`NaN`, which ECMAScript's sort treats as `0`. -/
def dateDescCmp (a b : NormalizedMod) : Int :=
  match a.releaseDateMs, b.releaseDateMs with
  | none, none => 0
  | none, some _ => 1
  | some _, none => -1
  | some x, some y => y - x

/-- The `date_asc` comparator of the source, at sign level: it returns
`ams - bms` with a null timestamp replaced by `Infinity`; two nulls give
`NaN`, treated as `0`. -/
def dateAscCmp (a b : NormalizedMod) : Int :=
  match a.releaseDateMs, b.releaseDateMs with
  | none, none => 0
  | none, some _ => 1
  | some _, none => -1
  | some x, some y => x - y

/-- The source's `sorters` table together with the fallback
`sorters[state.sort] || sorters.date_desc` of `applyFiltersAndSort`;
`localeCmp` abstracts `localeCompare(·, 'ru', { sensitivity: 'base' })`. -/
def sorterFor (localeCmp : String → String → Int) (key : String) :
    NormalizedMod → NormalizedMod → Int :=
  if key = "date_desc" then dateDescCmp
  else if key = "date_asc" then dateAscCmp
  else if key = "name_asc" then fun a b => localeCmp a.name b.name
  else if key = "name_desc" then fun a b => localeCmp b.name a.name
  else dateDescCmp

/-- Insertion step of the stable sort: the new element passes exactly the
existing elements that strictly precede it under the comparator. -/
def insertCmp (cmp : α → α → Int) (x : α) : List α → List α
  | [] => [x]
  | y :: ys => if cmp x y ≤ 0 then x :: y :: ys else y :: insertCmp cmp x ys

/-- Stable sort modelling `Array.prototype.sort` with a comparator. -/
def isort (cmp : α → α → Int) : List α → List α
  | [] => []
  | x :: xs => insertCmp cmp x (isort cmp xs)

/-- The filtering stage of the source's `applyFiltersAndSort`: the
lower-cased query, when non-empty, keeps items whose haystack contains it;
a status other than `all` keeps items whose (trimmed) status equals it. -/
def filterStage (mods : List NormalizedMod) (qs : QueryState) :
    List NormalizedMod :=
  let q := jsToLower qs.query
  let r1 :=
    if q = "" then mods
    else mods.filter (fun m => decide (q.toList <:+: m._haystack.toList))
  if qs.status = "all" then r1
  else r1.filter (fun m => jsTrim m.status == qs.status)

/-- The source's `applyFiltersAndSort`: filter, then stable-sort a copy
with the selected comparator. -/
def applyFiltersAndSort (localeCmp : String → String → Int)
    (mods : List NormalizedMod) (qs : QueryState) : List NormalizedMod :=
  isort (sorterFor localeCmp qs.sort) (filterStage mods qs)

/-- Model of a `URLSearchParams` instance: an ordered list of key/value
pairs. -/
abbrev UrlParams : Type := List (String × String)

/-- Model of `URLSearchParams.set`: replace the value in place when the key
is present, otherwise append the pair. -/
def paramsSet (ps : UrlParams) (k v : String) : UrlParams :=
  if (List.any ps (fun p => p.1 == k)) then
    List.map (fun p => if p.1 == k then (k, v) else p) ps
  else ps ++ [(k, v)]

/-- Model of `URLSearchParams.get`: first value for the key, `null`
(`none`) when absent. -/
def paramsGet (ps : UrlParams) (k : String) : Option String :=
  (List.find? (fun p => p.1 == k) ps).map (fun p => p.2)

/-- The source's `writeStateToURL`, restricted to the query string it
builds: all three parameters are always set. -/
def writeStateToURL (s : QueryState) : UrlParams :=
  paramsSet (paramsSet (paramsSet [] "q" s.query) "status" s.status) "sort" s.sort

/-- The source's `readStateFromURL`: a missing parameter falls back to its
default, a present parameter is used verbatim (even when empty). -/
def readStateFromURL (ps : UrlParams) : QueryState :=
  { query := match paramsGet ps "q" with | some v => v | none => DEFAULTS.query,
    status := match paramsGet ps "status" with | some v => v | none => DEFAULTS.status,
    sort := match paramsGet ps "sort" with | some v => v | none => DEFAULTS.sort }

/-- The source's `CACHE_DURATION` (one hour in milliseconds). -/
def CACHE_DURATION : Nat := 1000 * 60 * 60

/-- The two localStorage entries used by the cache (`ddlc_mods_cache` and
`ddlc_cache_expiry`).  The payload entry holds the JSON-serialized catalog,
modelled directly as the catalog (JSON round-trips these records); the
expiry entry holds the decimal string written by `String(...)`. -/
structure CacheStore where
  cached : Option (List NormalizedMod)
  expiry : Option String
deriving DecidableEq

/-- The source's `setCachedData` at time `now`: store the catalog and the
absolute expiry `String(now + CACHE_DURATION)`. -/
def setCachedData (now : Nat) (data : List NormalizedMod) : CacheStore :=
  { cached := some data, expiry := some (natDecRepr (now + CACHE_DURATION)) }

/-- The source's `getCachedData` at time `now`: absent when either entry is
missing; when the current time is strictly past the parsed expiry, both
entries are removed and the result is absent; otherwise the payload is
returned and the store is untouched.  (A `NaN` expiry never compares
greater, so it is never evicted, as in the source.) -/
def getCachedData (now : Nat) (st : CacheStore) :
    Option (List NormalizedMod) × CacheStore :=
  match st.cached, st.expiry with
  | some c, some e =>
    let expired : Bool := match parseIntDecimal e with
      | some t => decide ((now : Int) > t)
      | none => false
    if expired then (none, { cached := none, expiry := none })
    else (some c, st)
  | _, _ => (none, st)

/-- Spec-side description of the `sizeMb` coercion (for comparison with the
code): a native finite number as is, a numeric string parsed to a finite
number, null for every other shape. -/
def sizeMbOfSpec (v : JSValue) : Option ℚ :=
  match v with
  | .num (.finite q) => some q
  | .str s =>
    match jsNumberOfString s with
    | .finite q => some q
    | _ => none
  | _ => none

/-- Unfolding lemma: `validateGo` is the normalize-then-dedup pipeline. -/
theorem validateGo_eq_dedupGo (dp : String → Option Int) :
    ∀ (l : List JSValue) (seen : List String),
      validateGo dp l seen = dedupGo (normalizeStream dp l) seen := by
  intro l
  induction l with
  | nil => intro seen; rfl
  | cons item rest ih =>
    intro seen
    by_cases hobj : isObjectLike item = true
    · cases hnm : normalizeMod dp item with
      | none =>
        simp [validateGo, normalizeStream, hobj, hnm, List.filterMap_cons]
        simpa [normalizeStream] using ih seen
      | some nm =>
        by_cases hseen : nm.id ∈ seen
        · simp [validateGo, normalizeStream, hobj, hnm, List.filterMap_cons,
            dedupGo, hseen]
          simpa [normalizeStream] using ih seen
        · simp [validateGo, normalizeStream, hobj, hnm, List.filterMap_cons,
            dedupGo, hseen]
          simpa [normalizeStream] using ih (nm.id :: seen)
    · simp only [Bool.not_eq_true] at hobj
      simp [validateGo, normalizeStream, hobj, List.filterMap_cons]
      simpa [normalizeStream] using ih seen

/-- Deduplication only drops elements, keeping order. -/
theorem dedupGo_sublist : ∀ (l : List NormalizedMod) (seen : List String),
    List.Sublist (dedupGo l seen) l := by
  intro l
  induction l with
  | nil => intro seen; simp [dedupGo]
  | cons x xs ih =>
    intro seen
    by_cases h : seen.contains x.id = true
    · rw [dedupGo, if_pos h]
      exact (ih seen).trans (List.sublist_cons_self x xs)
    · rw [dedupGo, if_neg h]
      exact (ih (x.id :: seen)).cons₂ x

/-- Every surviving record's id was unseen on entry. -/
theorem mem_dedupGo_not_seen :
    ∀ (l : List NormalizedMod) (seen : List String) (x : NormalizedMod),
      x ∈ dedupGo l seen → seen.contains x.id = false := by
  intro l
  induction l with
  | nil => intro seen x hx; simp [dedupGo] at hx
  | cons y ys ih =>
    intro seen x hx
    by_cases h : seen.contains y.id = true
    · rw [dedupGo, if_pos h] at hx
      exact ih seen x hx
    · rw [dedupGo, if_neg h] at hx
      rcases List.mem_cons.mp hx with rfl | hx
      · simpa using h
      · have := ih (y.id :: seen) x hx
        simp only [List.contains_cons, Bool.or_eq_false_iff] at this
        exact this.2

/-- The deduplicated list has pairwise distinct ids. -/
theorem dedupGo_pairwise :
    ∀ (l : List NormalizedMod) (seen : List String),
      (dedupGo l seen).Pairwise (fun a b => a.id ≠ b.id) := by
  intro l
  induction l with
  | nil => intro seen; simp [dedupGo]
  | cons y ys ih =>
    intro seen
    by_cases h : seen.contains y.id = true
    · rw [dedupGo, if_pos h]
      exact ih seen
    · rw [dedupGo, if_neg h]
      refine List.Pairwise.cons ?_ (ih (y.id :: seen))
      intro b hb
      have hbmem := mem_dedupGo_not_seen ys (y.id :: seen) b hb
      rw [List.contains_cons] at hbmem
      simp only [Bool.or_eq_false_iff, beq_eq_false_iff_ne, ne_eq] at hbmem
      exact fun hid => hbmem.1 hid.symm

/-- C1.  For every parsed input tree, the validator returns the normalized
records of the candidate list (the tree itself when it is an array, else
its `mods` field when that is an array, else the empty list), in input
order, skipping non-object entries and rejected records, keeping only the
first record per `id`; the output is a subsequence of the normalized
stream, and it never contains two items with the same `id`. -/
theorem validate_returns_deduped_normalized_stream :
    ∀ (dp : String → Option Int) (data : JSValue),
      validateAndNormalizeData dp data
          = dedupById (normalizeStream dp (candidateList data)) ∧
      List.Sublist (validateAndNormalizeData dp data)
          (normalizeStream dp (candidateList data)) ∧
      (validateAndNormalizeData dp data).Pairwise (fun a b => a.id ≠ b.id) := by
  intro dp data
  have he : validateAndNormalizeData dp data
      = dedupById (normalizeStream dp (candidateList data)) :=
    validateGo_eq_dedupGo dp (candidateList data) []
  refine ⟨he, ?_, ?_⟩
  · rw [he]; exact dedupGo_sublist _ []
  · rw [he]; exact dedupGo_pairwise _ []

/-- C2.  A raw record is rejected by `normalizeMod` (a `none`, never an
exception) if and only if at least one of the six mandatory fields is empty
after string coercion and trimming; in particular a record whose mandatory
fields hold only whitespace is rejected. -/
theorem normalize_rejects_iff_mandatory_field_empty :
    ∀ (dp : String → Option Int) (mod : JSValue),
      (normalizeMod dp mod = none ↔
        (safeToString (getProp mod "id") = "" ∨
         safeToString (getProp mod "name") = "" ∨
         safeToString (getProp mod "description") = "" ∨
         safeToString (getProp mod "status") = "" ∨
         safeToString (getProp mod "release_date") = "" ∨
         safeToString (getProp mod "original_author") = "")) ∧
      normalizeMod dp (JSValue.obj
        [("id", .str " "), ("name", .str "\t"), ("description", .str "  "),
         ("status", .str " "), ("release_date", .str " "),
         ("original_author", .str " ")]) = none := by
  intro dp mod
  constructor
  · constructor
    · intro h
      by_contra hnot
      push_neg at hnot
      obtain ⟨h1, h2, h3, h4, h5, h6⟩ := hnot
      rw [normalizeMod] at h
      rw [if_neg (by simp [h1, h2, h3, h4, h5, h6])] at h
      exact Option.some_ne_none _ h
    · intro h
      rw [normalizeMod, if_pos h]
  · rw [normalizeMod, if_pos (by decide)]

/-- The stats fold, from arbitrary starting counters: it adds the number of
completed records to one counter and the number of all remaining records to
the other, and never touches the total. -/
theorem calculateStats_fold (l : List NormalizedMod) :
    ∀ (t c p : Nat),
      l.foldl
        (fun (st : Stats) (m : NormalizedMod) =>
          if isCompletedStatus m.status then { st with completed := st.completed + 1 }
          else { st with inProgress := st.inProgress + 1 })
        { total := t, completed := c, inProgress := p }
      = (⟨t, c + (l.filter (fun m => isCompletedStatus m.status)).length,
           p + (l.filter (fun m => !isCompletedStatus m.status)).length⟩ : Stats) := by
  induction l with
  | nil => intro t c p; simp
  | cons m ms ih =>
    intro t c p
    by_cases h : isCompletedStatus m.status = true
    · rw [List.foldl_cons, if_pos h, ih]
      simp [List.filter_cons, h, Stats.mk.injEq]
      omega
    · have h' : isCompletedStatus m.status = false := by
        cases hb : isCompletedStatus m.status
        · rfl
        · exact absurd hb h
      rw [List.foldl_cons, if_neg (by simp [h']), ih]
      simp [List.filter_cons, h', Stats.mk.injEq]
      omega

/-- C9.  For every catalog, the aggregated stats have `total` equal to the
number of items, `completed` equal to the number of items whose trimmed
status compares case-insensitively equal to the fixed completed literal,
and `inProgress` equal to the count of all remaining items; there is no
third bucket and `total = completed + inProgress`. -/
theorem stats_two_buckets :
    ∀ (mods : List NormalizedMod),
      (calculateStats mods).total = mods.length ∧
      (calculateStats mods).completed
        = (mods.filter (fun m =>
            jsToLower (jsTrim m.status) == jsToLower STATUS_COMPLETED)).length ∧
      (calculateStats mods).inProgress
        = (mods.filter (fun m =>
            !(jsToLower (jsTrim m.status) == jsToLower STATUS_COMPLETED))).length ∧
      (calculateStats mods).total
        = (calculateStats mods).completed + (calculateStats mods).inProgress := by
  intro mods
  have h := calculateStats_fold mods mods.length 0 0
  have hc : calculateStats mods
      = (⟨mods.length, (mods.filter (fun m => isCompletedStatus m.status)).length,
          (mods.filter (fun m => !isCompletedStatus m.status)).length⟩ : Stats) := by
    rw [calculateStats, h]
    simp
  rw [hc]
  refine ⟨rfl, rfl, rfl, ?_⟩
  simp only [isCompletedStatus]
  have hsplit :
      ∀ (l : List NormalizedMod) (p : NormalizedMod → Bool),
        (l.filter p).length + (l.filter (fun a => !p a)).length = l.length := by
    intro l p
    induction l with
    | nil => simp
    | cons x xs ihx =>
      cases hx : p x <;> simp [List.filter_cons, hx] <;> omega
  have := hsplit mods
    (fun m => jsToLower (jsTrim m.status) == jsToLower STATUS_COMPLETED)
  omega

/-- C7.  For every raw record that normalizes, the `size_mb` field of the
result is the input value itself for a native finite number, the parsed
finite value for a numeric string, and null for every other input shape
(`NaN`, infinities, booleans, objects, arrays, absent values and
non-numeric strings included); no branch can raise. -/
theorem size_mb_coercion :
    ∀ (dp : String → Option Int) (mod : JSValue) (nm : NormalizedMod),
      normalizeMod dp mod = some nm →
      nm.size_mb = sizeMbOfSpec (getProp mod "size_mb") := by
  intro dp mod nm h
  rw [normalizeMod] at h
  by_cases hc : (safeToString (getProp mod "id") = "" ∨
      safeToString (getProp mod "name") = "" ∨
      safeToString (getProp mod "description") = "" ∨
      safeToString (getProp mod "status") = "" ∨
      safeToString (getProp mod "release_date") = "" ∨
      safeToString (getProp mod "original_author") = "")
  · rw [if_pos hc] at h
    exact absurd h (by simp)
  · rw [if_neg hc] at h
    have hs := congrArg NormalizedMod.size_mb (Option.some_inj.mp h)
    rw [← hs]
    cases hv : getProp mod "size_mb" with
    | num n => cases n <;> simp [sizeMbOfSpec, hv]
    | str s => simp [sizeMbOfSpec, hv]
    | undefined => simp [sizeMbOfSpec, hv]
    | null => simp [sizeMbOfSpec, hv]
    | bool b => simp [sizeMbOfSpec, hv]
    | arr l => simp [sizeMbOfSpec, hv]
    | obj fs => simp [sizeMbOfSpec, hv]

/-- C5.  Writing the query state to the URL always emits all three
parameters, and reading it back reconstructs an equal state — including
states whose fields are the empty string, since the read path applies a
default only when the parameter is absent (an explicitly empty value is
kept as the empty string). -/
theorem url_state_round_trip :
    ∀ (s : QueryState),
      (readStateFromURL (writeStateToURL s) = s ∧
       paramsGet (writeStateToURL s) "q" = some s.query ∧
       paramsGet (writeStateToURL s) "status" = some s.status ∧
       paramsGet (writeStateToURL s) "sort" = some s.sort) ∧
      (∀ ps : UrlParams,
        (paramsGet ps "q" = none → (readStateFromURL ps).query = "") ∧
        (paramsGet ps "status" = none → (readStateFromURL ps).status = "all") ∧
        (paramsGet ps "sort" = none → (readStateFromURL ps).sort = "date_desc")) := by
  intro s
  constructor
  · have hw : writeStateToURL s
        = [("q", s.query), ("status", s.status), ("sort", s.sort)] := by
      rfl
    rw [hw]
    refine ⟨?_, rfl, rfl, rfl⟩
    rfl
  · intro ps
    refine ⟨?_, ?_, ?_⟩ <;> intro h <;>
      simp [readStateFromURL, h, DEFAULTS]

/-- Witness for the defaulting clauses of the URL round-trip theorem, at
the empty parameter list and an all-empty state. -/
theorem url_state_round_trip_witness :
    readStateFromURL (writeStateToURL ⟨"", "", ""⟩) = ⟨"", "", ""⟩ ∧
    (readStateFromURL []).status = "all" := by
  exact ⟨((url_state_round_trip ⟨"", "", ""⟩).1).1,
         (((url_state_round_trip ⟨"", "", ""⟩).2 []).2).1 rfl⟩

/-- Inserting permutes: the insertion step only adds the new element. -/
theorem insertCmp_perm (cmp : α → α → Int) (x : α) :
    ∀ l : List α, List.Perm (insertCmp cmp x l) (x :: l) := by
  intro l
  induction l with
  | nil => rfl
  | cons y ys ih =>
    rw [insertCmp]
    by_cases h : cmp x y ≤ 0
    · rw [if_pos h]
    · rw [if_neg h]
      exact (ih.cons y).trans (List.Perm.swap x y ys)

/-- The stable sort is a permutation of its input. -/
theorem isort_perm (cmp : α → α → Int) :
    ∀ l : List α, List.Perm (isort cmp l) l := by
  intro l
  induction l with
  | nil => rfl
  | cons x xs ih =>
    rw [isort]
    exact (insertCmp_perm cmp x (isort cmp xs)).trans (ih.cons x)

/-- Membership is unchanged by the sort. -/
theorem mem_isort (cmp : α → α → Int) (l : List α) (a : α) :
    a ∈ isort cmp l ↔ a ∈ l :=
  (isort_perm cmp l).mem_iff

/-- The list grows by one element under insertion, as a sublist. -/
theorem sublist_insertCmp (cmp : α → α → Int) (x : α) :
    ∀ l : List α, List.Sublist l (insertCmp cmp x l) := by
  intro l
  induction l with
  | nil => simp [insertCmp]
  | cons y ys ih =>
    rw [insertCmp]
    by_cases h : cmp x y ≤ 0
    · rw [if_pos h]
      exact List.sublist_cons_self x (y :: ys)
    · rw [if_neg h]
      exact ih.cons₂ y

/-- Inserting an element that does not strictly follow `b` places it before
every occurrence of `b`. -/
theorem pair_sublist_insertCmp (cmp : α → α → Int) (a b : α)
    (hab : cmp a b ≤ 0) :
    ∀ l : List α, b ∈ l → List.Sublist [a, b] (insertCmp cmp a l) := by
  intro l
  induction l with
  | nil => intro hb; exact absurd hb (List.not_mem_nil b)
  | cons y ys ih =>
    intro hb
    rw [insertCmp]
    by_cases h : cmp a y ≤ 0
    · rw [if_pos h]
      exact (List.singleton_sublist.mpr hb).cons₂ a
    · rw [if_neg h]
      rcases List.mem_cons.mp hb with rfl | hb'
      · exact absurd hab h
      · exact (ih hb').cons y

/-- Stability of the sort: a pair that appears in order in the input and
does not compare strictly out of order appears in order in the output. -/
theorem isort_stable (cmp : α → α → Int) (a b : α) (hab : cmp a b ≤ 0) :
    ∀ l : List α, List.Sublist [a, b] l → List.Sublist [a, b] (isort cmp l) := by
  intro l
  induction l with
  | nil => intro h; cases h
  | cons x xs ih =>
    intro h
    rw [isort]
    cases h with
    | cons _ h' =>
      exact (ih h').trans (sublist_insertCmp cmp x (isort cmp xs))
    | cons₂ _ h' =>
      have hbmem : b ∈ isort cmp xs :=
        (mem_isort cmp xs b).mpr (List.singleton_sublist.mp h')
      exact pair_sublist_insertCmp cmp a b hab (isort cmp xs) hbmem

/-- Insertion preserves sortedness under a total transitive comparator. -/
theorem insertCmp_pairwise (cmp : α → α → Int)
    (htot : ∀ u v : α, cmp u v ≤ 0 ∨ cmp v u ≤ 0)
    (htrans : ∀ u v w : α, cmp u v ≤ 0 → cmp v w ≤ 0 → cmp u w ≤ 0)
    (x : α) :
    ∀ l : List α, l.Pairwise (fun u v => cmp u v ≤ 0) →
      (insertCmp cmp x l).Pairwise (fun u v => cmp u v ≤ 0) := by
  intro l
  induction l with
  | nil => intro _; simp [insertCmp]
  | cons y ys ih =>
    intro hp
    rw [insertCmp]
    rcases List.pairwise_cons.mp hp with ⟨hy, hys⟩
    by_cases h : cmp x y ≤ 0
    · rw [if_pos h]
      refine List.pairwise_cons.mpr ⟨?_, hp⟩
      intro z hz
      rcases List.mem_cons.mp hz with rfl | hz'
      · exact h
      · exact htrans x y z h (hy z hz')
    · rw [if_neg h]
      refine List.pairwise_cons.mpr ⟨?_, ih hys⟩
      intro z hz
      have hz' : z = x ∨ z ∈ ys :=
        List.mem_cons.mp ((insertCmp_perm cmp x ys).mem_iff.mp hz)
      rcases hz' with rfl | hz''
      · rcases htot z y with hzy | hyz
        · exact absurd hzy h
        · exact hyz
      · exact hy z hz''

/-- The sort output is sorted under a total transitive comparator. -/
theorem isort_pairwise (cmp : α → α → Int)
    (htot : ∀ u v : α, cmp u v ≤ 0 ∨ cmp v u ≤ 0)
    (htrans : ∀ u v w : α, cmp u v ≤ 0 → cmp v w ≤ 0 → cmp u w ≤ 0) :
    ∀ l : List α, (isort cmp l).Pairwise (fun u v => cmp u v ≤ 0) := by
  intro l
  induction l with
  | nil => simp [isort]
  | cons x xs ih =>
    rw [isort]
    exact insertCmp_pairwise cmp htot htrans x (isort cmp xs) ih

/-- The combined inclusion predicate of the two filters of
`applyFiltersAndSort`: pass the text filter (vacuous for an empty
lower-cased query) and the status filter (vacuous for `all`). -/
def includedB (qs : QueryState) (m : NormalizedMod) : Bool :=
  (decide (jsToLower qs.query = "") ||
    decide ((jsToLower qs.query).toList <:+: m._haystack.toList)) &&
  (decide (qs.status = "all") || (jsTrim m.status == qs.status))

/-- The two sequential conditional filters equal one filter by the combined
predicate. -/
theorem filterStage_eq_filter (mods : List NormalizedMod) (qs : QueryState) :
    filterStage mods qs = mods.filter (includedB qs) := by
  rw [filterStage]
  by_cases hq : jsToLower qs.query = ""
  · rw [if_pos hq]
    by_cases hs : qs.status = "all"
    · rw [if_pos hs]
      have : ∀ m ∈ mods, true = includedB qs m := by
        intro m _; simp [includedB, hq, hs]
      simpa using List.filter_congr this
    · rw [if_neg hs]
      refine List.filter_congr ?_
      intro m _
      simp [includedB, hq, hs]
  · rw [if_neg hq]
    by_cases hs : qs.status = "all"
    · rw [if_pos hs]
      refine List.filter_congr ?_
      intro m _
      simp [includedB, hq, hs]
    · rw [if_neg hs]
      rw [List.filter_filter]
      refine List.filter_congr ?_
      intro m _
      simp [includedB, hq, hs, Bool.and_comm]

/-- C3 (amended).  For every catalog and query state, an item of the
catalog is in the output of the filter/sort engine if and only if the
lower-cased (not trimmed) query is empty or its haystack contains it as a
substring, and the status is `all` or the item's status equals it exactly
and case-sensitively; inclusion never depends on the sort key. -/
theorem view_membership_amended :
    ∀ (lc : String → String → Int) (mods : List NormalizedMod)
      (qs : QueryState) (m : NormalizedMod),
      jsTrim m.status = m.status →
      (m ∈ applyFiltersAndSort lc mods qs ↔
        m ∈ mods ∧
        (jsToLower qs.query = "" ∨
          (jsToLower qs.query).toList <:+: m._haystack.toList) ∧
        (qs.status = "all" ∨ m.status = qs.status)) := by
  intro lc mods qs m hstat
  rw [applyFiltersAndSort, mem_isort, filterStage_eq_filter, List.mem_filter]
  constructor
  · rintro ⟨hmem, hinc⟩
    refine ⟨hmem, ?_⟩
    rw [includedB, Bool.and_eq_true, Bool.or_eq_true, Bool.or_eq_true] at hinc
    constructor
    · rcases hinc.1 with h | h
      · exact Or.inl (of_decide_eq_true h)
      · exact Or.inr (of_decide_eq_true h)
    · rcases hinc.2 with h | h
      · exact Or.inl (of_decide_eq_true h)
      · exact Or.inr (by rw [← hstat]; exact eq_of_beq h)
  · rintro ⟨hmem, h1, h2⟩
    refine ⟨hmem, ?_⟩
    rw [includedB, Bool.and_eq_true, Bool.or_eq_true, Bool.or_eq_true]
    constructor
    · rcases h1 with h | h
      · exact Or.inl (decide_eq_true h)
      · exact Or.inr (decide_eq_true h)
    · rcases h2 with h | h
      · exact Or.inl (decide_eq_true h)
      · exact Or.inr (by rw [hstat]; exact beq_iff_eq.mpr h)

/-- A concrete normalized item, as `normalizeMod` produces for the record
with id `a`, name `abc`, description `d`, status `Завершен`, release date
`2024` and author `x` (with an unparseable date). -/
def cexItem : NormalizedMod :=
  { id := "a", name := "abc", description := "d", status := "Завершен",
    release_date := "2024", releaseDateMs := none, original_author := "x",
    imageUrl := "", downloadUrl := "", source_url := "", mirrors := [],
    tags := [], warnings := [], size_mb := none, _haystack := "abc | d | x" }

/-- A constant comparator standing in for the host `localeCompare` in
closed instances (the date sorters never consult it). -/
def constLocaleCmp : String → String → Int := fun _ _ => 0

/-- The query state of the C3 counterexample: a query consisting of a
letter surrounded by spaces. -/
def qsC3 : QueryState := { query := " a ", status := "all", sort := "date_desc" }

/-- The raw record that normalizes to `cexItem`. -/
def rawC3 : JSValue :=
  .obj [("id", .str "a"), ("name", .str "abc"), ("description", .str "d"),
        ("status", .str "Завершен"), ("release_date", .str "2024"),
        ("original_author", .str "x")]

/-- The counterexample item is reachable: normalizing `rawC3` (under a host
date parser that fails on `2024`) yields exactly `cexItem`. -/
theorem cexItem_reachable :
    normalizeMod (fun _ => none) rawC3 = some cexItem := by decide

/-- C3 counterexample.  The claim predicts inclusion from the trimmed
lower-cased query: for the query `" a "` its trimmed form `"a"` is
non-empty and contained in the haystack `"abc | d | x"`, and the status
filter passes, so the claim includes the item — but the code filters with
the untrimmed `" a "`, which is not a substring of the haystack, and drops
it. -/
theorem view_membership_trimmed_query_counterexample :
    (jsTrim (jsToLower qsC3.query) ≠ "" ∧
     (jsTrim (jsToLower qsC3.query)).toList <:+: cexItem._haystack.toList) ∧
    qsC3.status = "all" ∧
    cexItem ∈ [cexItem] ∧
    cexItem ∉ applyFiltersAndSort constLocaleCmp [cexItem] qsC3 := by decide

/-- Witness for the amended C3 membership theorem at a concrete catalog
and state. -/
theorem view_membership_amended_witness :
    cexItem ∈ applyFiltersAndSort constLocaleCmp [cexItem]
      { query := "ABC", status := "Завершен", sort := "name_asc" } :=
  (view_membership_amended constLocaleCmp [cexItem]
      { query := "ABC", status := "Завершен", sort := "name_asc" }
      cexItem (by decide)).mpr
    ⟨by decide, Or.inr (by decide), Or.inr (by decide)⟩

/-- The descending date comparator is total (at the `≤ 0` level). -/
theorem dateDescCmp_total (u v : NormalizedMod) :
    dateDescCmp u v ≤ 0 ∨ dateDescCmp v u ≤ 0 := by
  cases hu : u.releaseDateMs <;> cases hv : v.releaseDateMs <;>
    simp [dateDescCmp, hu, hv] <;> omega

/-- The descending date comparator is transitive (at the `≤ 0` level). -/
theorem dateDescCmp_trans (u v w : NormalizedMod) :
    dateDescCmp u v ≤ 0 → dateDescCmp v w ≤ 0 → dateDescCmp u w ≤ 0 := by
  cases hu : u.releaseDateMs <;> cases hv : v.releaseDateMs <;>
    cases hw : w.releaseDateMs <;> simp [dateDescCmp, hu, hv, hw] <;> omega

/-- The ascending date comparator is total (at the `≤ 0` level). -/
theorem dateAscCmp_total (u v : NormalizedMod) :
    dateAscCmp u v ≤ 0 ∨ dateAscCmp v u ≤ 0 := by
  cases hu : u.releaseDateMs <;> cases hv : v.releaseDateMs <;>
    simp [dateAscCmp, hu, hv] <;> omega

/-- The ascending date comparator is transitive (at the `≤ 0` level). -/
theorem dateAscCmp_trans (u v w : NormalizedMod) :
    dateAscCmp u v ≤ 0 → dateAscCmp v w ≤ 0 → dateAscCmp u w ≤ 0 := by
  cases hu : u.releaseDateMs <;> cases hv : v.releaseDateMs <;>
    cases hw : w.releaseDateMs <;> simp [dateAscCmp, hu, hv, hw] <;> omega

/-- C4.  The sort performed by the filter/sort engine is stable — two
items that survive the filters with equal sort keys keep their relative
catalog order in the output — and under both date comparators every item
with a null `releaseDateMs` is placed after every item with a non-null
one (once a null appears in the output, everything after it is null). -/
theorem view_sort_stable_and_nulls_last :
    ∀ (lc : String → String → Int) (mods : List NormalizedMod)
      (qs : QueryState) (a b : NormalizedMod),
      (List.Sublist [a, b] mods →
        includedB qs a = true → includedB qs b = true →
        sorterFor lc qs.sort a b = 0 →
        List.Sublist [a, b] (applyFiltersAndSort lc mods qs)) ∧
      ((qs.sort = "date_desc" ∨ qs.sort = "date_asc") →
        List.Sublist [a, b] (applyFiltersAndSort lc mods qs) →
        a.releaseDateMs = none → b.releaseDateMs = none) := by
  intro lc mods qs a b
  constructor
  · intro hsub hpa hpb hcmp
    rw [applyFiltersAndSort, filterStage_eq_filter]
    have hpair : List.Sublist [a, b] (mods.filter (includedB qs)) := by
      have := hsub.filter (includedB qs)
      simpa [List.filter_cons, hpa, hpb] using this
    exact isort_stable _ a b (le_of_eq hcmp) _ hpair
  · intro hkey hout ha
    have hsorted :
        (applyFiltersAndSort lc mods qs).Pairwise
          (fun u v => sorterFor lc qs.sort u v ≤ 0) := by
      rw [applyFiltersAndSort]
      rcases hkey with hk | hk
      · rw [hk]
        have hs : sorterFor lc "date_desc" = dateDescCmp := by
          rw [sorterFor, if_pos rfl]
        rw [hs]
        exact isort_pairwise dateDescCmp dateDescCmp_total dateDescCmp_trans _
      · rw [hk]
        have hs : sorterFor lc "date_asc" = dateAscCmp := by
          rw [sorterFor, if_neg (by decide), if_pos rfl]
        rw [hs]
        exact isort_pairwise dateAscCmp dateAscCmp_total dateAscCmp_trans _
    have hab : sorterFor lc qs.sort a b ≤ 0 :=
      List.rel_of_pairwise_cons (List.Pairwise.sublist hout hsorted)
        (List.mem_singleton.mpr rfl)
    cases hb : b.releaseDateMs with
    | none => rfl
    | some y =>
      exfalso
      rcases hkey with hk | hk
      · rw [hk, sorterFor, if_pos rfl] at hab
        simp [dateDescCmp, ha, hb] at hab
      · rw [hk, sorterFor, if_neg (by decide), if_pos rfl] at hab
        simp [dateAscCmp, ha, hb] at hab

/-- A small concrete normalized item used in closed instances. -/
def mkItem (id : String) (ms : Option Int) : NormalizedMod :=
  { id := id, name := "n", description := "d", status := "s",
    release_date := "r", releaseDateMs := ms, original_author := "a",
    imageUrl := "", downloadUrl := "", source_url := "", mirrors := [],
    tags := [], warnings := [], size_mb := none, _haystack := "n | d | a" }

/-- Witness for the stability and null-placement theorem: two items with
the equal timestamp keep their order under `date_asc`, and in a catalog
ending with two null-timestamp items the item after a null one is null. -/
theorem view_sort_stable_and_nulls_last_witness :
    List.Sublist [mkItem "1" (some 5), mkItem "2" (some 5)]
      (applyFiltersAndSort constLocaleCmp
        [mkItem "1" (some 5), mkItem "2" (some 5), mkItem "3" none]
        { query := "", status := "all", sort := "date_asc" }) ∧
    (mkItem "5" none).releaseDateMs = none := by
  constructor
  · exact (view_sort_stable_and_nulls_last constLocaleCmp
      [mkItem "1" (some 5), mkItem "2" (some 5), mkItem "3" none]
      { query := "", status := "all", sort := "date_asc" }
      (mkItem "1" (some 5)) (mkItem "2" (some 5))).1
      (by decide) (by decide) (by decide) (by decide)
  · exact (view_sort_stable_and_nulls_last constLocaleCmp
      [mkItem "1" (some 5), mkItem "4" none, mkItem "5" none]
      { query := "", status := "all", sort := "date_asc" }
      (mkItem "4" none) (mkItem "5" none)).2
      (Or.inr rfl) (by decide) rfl

/-- Digit characters produced by `Nat.digitChar` below ten are decimal
digits and are not whitespace. -/
theorem digitChar_props (m : Nat) (hm : m < 10) :
    (Nat.digitChar m).isDigit = true ∧ isJsSpace (Nat.digitChar m) = false := by
  interval_cases m <;> exact ⟨by decide, by decide⟩

/-- Every character of the decimal rendering is a digit and not
whitespace. -/
theorem natDigits_props (n : Nat) :
    ∀ c ∈ natDigits n, c.isDigit = true ∧ isJsSpace c = false := by
  induction n using Nat.strong_induction_on with
  | _ n ih =>
    rw [natDigits]
    by_cases h : n < 10
    · rw [dif_pos h]
      intro c hc
      rw [List.mem_singleton] at hc
      subst hc
      exact digitChar_props n h
    · rw [dif_neg h]
      intro c hc
      rcases List.mem_append.mp hc with hc' | hc'
      · exact ih (n / 10) (Nat.div_lt_self (by omega) (by omega)) c hc'
      · rw [List.mem_singleton] at hc'
        subst hc'
        exact digitChar_props (n % 10) (Nat.mod_lt n (by omega))

/-- The decimal rendering is never empty. -/
theorem natDigits_ne_nil (n : Nat) : natDigits n ≠ [] := by
  rw [natDigits]
  by_cases h : n < 10
  · rw [dif_pos h]; simp
  · rw [dif_neg h]; simp

/-- Reading the decimal rendering back gives the value. -/
theorem valOfDigits_natDigits (n : Nat) : valOfDigits (natDigits n) = n := by
  induction n using Nat.strong_induction_on with
  | _ n ih =>
    rw [natDigits]
    by_cases h : n < 10
    · rw [dif_pos h]
      interval_cases n <;> decide
    · rw [dif_neg h]
      have hs : valOfDigits (natDigits (n / 10) ++ [Nat.digitChar (n % 10)])
          = 10 * valOfDigits (natDigits (n / 10)) + ((Nat.digitChar (n % 10)).toNat - 48) := by
        rw [valOfDigits, List.foldl_append]
        rfl
      rw [hs, ih (n / 10) (Nat.div_lt_self (by omega) (by omega))]
      have hd : (Nat.digitChar (n % 10)).toNat - 48 = n % 10 := by
        have : n % 10 < 10 := Nat.mod_lt n (by omega)
        interval_cases h10 : n % 10 <;> simp_all <;> decide
      rw [hd]
      omega

/-- Dropping while a predicate that holds nowhere drops nothing. -/
theorem dropWhile_eq_self_of_all_false (p : Char → Bool) :
    ∀ l : List Char, (∀ c ∈ l, p c = false) → l.dropWhile p = l := by
  intro l h
  cases l with
  | nil => rfl
  | cons x xs =>
    rw [List.dropWhile_cons, if_neg]
    rw [h x (List.mem_cons_self x xs)]
    simp

/-- Taking while a predicate that holds everywhere takes everything. -/
theorem takeWhile_eq_self_of_all_true (p : Char → Bool) :
    ∀ l : List Char, (∀ c ∈ l, p c = true) → l.takeWhile p = l := by
  intro l
  induction l with
  | nil => intro _; rfl
  | cons x xs ih =>
    intro h
    rw [List.takeWhile_cons, if_pos (h x (List.mem_cons_self x xs))]
    rw [ih (fun c hc => h c (List.mem_cons.mpr (Or.inr hc)))]

/-- Trimming a string without whitespace characters is a no-op. -/
theorem jsTrim_eq_self_of_no_space (l : List Char)
    (h : ∀ c ∈ l, isJsSpace c = false) : jsTrim (String.mk l) = String.mk l := by
  rw [jsTrim]
  have h1 : (String.mk l).toList = l := rfl
  rw [h1, dropWhile_eq_self_of_all_false isJsSpace l h,
      dropWhile_eq_self_of_all_false isJsSpace l.reverse
        (fun c hc => h c (List.mem_reverse.mp hc)),
      List.reverse_reverse]

/-- The decimal rendering of a natural number parses back to it. -/
theorem parseIntDecimal_natDecRepr (n : Nat) :
    parseIntDecimal (natDecRepr n) = some (n : Int) := by
  have htrim : jsTrim (natDecRepr n) = natDecRepr n :=
    jsTrim_eq_self_of_no_space (natDigits n)
      (fun c hc => (natDigits_props n c hc).2)
  have hlist : (jsTrim (natDecRepr n)).toList = natDigits n := by
    rw [htrim]; rfl
  rcases List.exists_cons_of_ne_nil (natDigits_ne_nil n) with ⟨c, rest, hcr⟩
  have hcdigit : c.isDigit = true :=
    (natDigits_props n c (hcr ▸ List.mem_cons_self c rest)).1
  have hcneg : ¬ c = '-' := fun he => by rw [he] at hcdigit; exact absurd hcdigit (by decide)
  have hcpos : ¬ c = '+' := fun he => by rw [he] at hcdigit; exact absurd hcdigit (by decide)
  rw [parseIntDecimal, hlist, hcr]
  dsimp only
  rw [if_neg hcneg, if_neg hcpos]
  have htake : (c :: rest).takeWhile Char.isDigit = c :: rest := by
    refine takeWhile_eq_self_of_all_true Char.isDigit (c :: rest) ?_
    intro d hd
    exact (natDigits_props n d (hcr ▸ hd)).1
  rw [leadingDigitsVal]
  simp only [htake]
  rw [if_neg (by simp)]
  have hval : valOfDigits (c :: rest) = n := by
    rw [← hcr]; exact valOfDigits_natDigits n
  simp [hval]

/-- C6.  Setting the cache and reading it back before the fixed duration
has elapsed returns an equal catalog with the store untouched; and for any
stored entry, a read at a time strictly past the stored expiry returns
absent and eagerly removes both the payload and the expiry entries. -/
theorem cache_round_trip_and_eager_eviction :
    ∀ (now nowGet : Nat) (data : List NormalizedMod),
      ((nowGet : Int) ≤ ((now + CACHE_DURATION : Nat) : Int) →
        getCachedData nowGet (setCachedData now data)
          = (some data, setCachedData now data)) ∧
      (∀ (st : CacheStore) (c : List NormalizedMod) (e : String) (t : Int),
        st.cached = some c → st.expiry = some e →
        parseIntDecimal e = some t → (nowGet : Int) > t →
        getCachedData nowGet st = (none, { cached := none, expiry := none })) := by
  intro now nowGet data
  constructor
  · intro h
    rw [setCachedData, getCachedData]
    simp only [parseIntDecimal_natDecRepr]
    rw [if_neg (by simpa using Int.not_lt.mpr h)]
  · intro st c e t hc he hp ht
    rw [getCachedData]
    rw [hc, he]
    simp only [hp]
    rw [if_pos (by simpa using ht)]

/-- Witness for the cache theorem: a concrete round trip inside the window
and a concrete expired read that clears the store. -/
theorem cache_round_trip_witness :
    getCachedData 17 (setCachedData 17 [mkItem "w" none])
      = (some [mkItem "w" none], setCachedData 17 [mkItem "w" none]) ∧
    getCachedData 6 { cached := some [], expiry := some "5" }
      = (none, { cached := none, expiry := none }) := by
  constructor
  · exact (cache_round_trip_and_eager_eviction 17 17 [mkItem "w" none]).1 (by decide)
  · exact (cache_round_trip_and_eager_eviction 17 6 []).2
      { cached := some [], expiry := some "5" } [] "5" 5 rfl rfl (by decide) (by decide)

/-- A character that does not occur has last index `-1`. -/
theorem lastIndexOfChar_of_not_mem (c : Char) :
    ∀ l : List Char, c ∉ l → lastIndexOfChar c l = -1 := by
  intro l
  induction l with
  | nil => intro _; rfl
  | cons x xs ih =>
    intro h
    rw [lastIndexOfChar, ih (fun hm => h (List.mem_cons.mpr (Or.inr hm)))]
    rw [if_neg (by omega), if_neg (fun he => h (List.mem_cons.mpr (Or.inl he.symm)))]

/-- The last index is characterised by holding the character with no later
occurrence. -/
theorem lastIndexOfChar_eq_of (c : Char) :
    ∀ (l : List Char) (i : Nat), l[i]? = some c →
      (∀ j, j < l.length → i < j → l[j]? ≠ some c) →
      lastIndexOfChar c l = (i : Int) := by
  intro l
  induction l with
  | nil => intro i hchar _; simp at hchar
  | cons x xs ih =>
    intro i hchar hno
    cases i with
    | zero =>
      have hx : x = c := by simpa using hchar
      have hnot : c ∉ xs := by
        intro hmem
        rcases List.getElem_of_mem hmem with ⟨k, hk, hkeq⟩
        exact hno (k + 1) (by simpa using hk) (by omega)
          (by simpa using List.getElem?_eq_getElem hk ▸ congrArg some hkeq)
      rw [lastIndexOfChar, lastIndexOfChar_of_not_mem c xs hnot]
      rw [if_neg (by omega), if_pos hx]
      rfl
    | succ i' =>
      have hchar' : xs[i']? = some c := by simpa using hchar
      have hno' : ∀ j, j < xs.length → i' < j → xs[j]? ≠ some c := by
        intro j hj hij hcon
        exact hno (j + 1) (by simpa using hj) (by omega) (by simpa using hcon)
      rw [lastIndexOfChar, ih i' hchar' hno']
      rw [if_pos (by omega)]
      push_cast
      ring

/-- When the character occurs, the last index exists and satisfies the
characterisation. -/
theorem exists_lastIndexOfChar_of_mem (c : Char) :
    ∀ l : List Char, c ∈ l →
      ∃ i : Nat, lastIndexOfChar c l = (i : Int) ∧ l[i]? = some c ∧
        ∀ j, j < l.length → i < j → l[j]? ≠ some c := by
  intro l
  induction l with
  | nil => intro h; exact absurd h (List.not_mem_nil c)
  | cons x xs ih =>
    intro h
    by_cases hmem : c ∈ xs
    · rcases ih hmem with ⟨i, hli, hchar, hno⟩
      refine ⟨i + 1, ?_, by simpa using hchar, ?_⟩
      · rw [lastIndexOfChar, hli, if_pos (by omega)]
        push_cast
        ring
      · intro j hj hij
        cases j with
        | zero => omega
        | succ j' =>
          have : j' < xs.length := by simpa using hj
          simpa using hno j' this (by omega)
    · have hx : x = c := by
        rcases List.mem_cons.mp h with he | hm
        · exact he.symm
        · exact absurd hm hmem
      refine ⟨0, ?_, by simpa using congrArg some hx, ?_⟩
      · rw [lastIndexOfChar, lastIndexOfChar_of_not_mem c xs hmem]
        rw [if_neg (by omega), if_pos hx]
        rfl
      · intro j hj hij hcon
        cases j with
        | zero => omega
        | succ j' =>
          exact hmem (List.getElem?_mem (by simpa using hcon))

/-- Unfolding of `truncateUnicode` when the trimmed input exceeds the
budget. -/
theorem truncateUnicode_of_overflow (s : String) (m : Nat) (pw : Bool)
    (e : String) (h : m < (jsTrim s).toList.length) :
    truncateUnicode s m pw e =
      { text := String.mk
          (if pw = true ∧
              5 * (if lastIndexOfChar ' ' ((jsTrim s).toList.take m) ≥ 0
                   then (utf16Len (((jsTrim s).toList.take m).take
                      (lastIndexOfChar ' ' ((jsTrim s).toList.take m)).toNat) : Int)
                   else -1) > 3 * (m : Int)
           then ((jsTrim s).toList.take m).take
              (lastIndexOfChar ' ' ((jsTrim s).toList.take m)).toNat
           else (jsTrim s).toList.take m) ++ e,
        truncated := true } := by
  have hne : ¬ jsTrim s = "" := by
    intro he
    rw [he] at h
    simp at h
  simp only [truncateUnicode]
  rw [if_neg hne, if_neg (by omega)]

/-- C8 (amended).  The truncation utility spreads the input into Unicode
code points and, when the trimmed input exceeds the budget, keeps the first
`maxChars` code points; when word-boundary preservation is requested it
backs off to the nearest preceding space if and only if the position of
that space measured in UTF-16 code units is strictly greater than 60% of
the budget (the budget counts code points but `lastIndexOf` returns a
code-unit index, so astral characters before the space push it past the
threshold); at or below the threshold the hard cutoff is kept.  The
back-off cuts immediately before the space, so it never splits a surrogate
pair.  The concrete conjuncts show the cut of `Привет мир` at five code
points landing on a code-point boundary, and the unit-measured back-off of
`𝕏𝕏 abcdef` at budget 5 (space at code-point index 2 but unit index 4,
past 60%). -/
theorem truncate_structure_amended :
    ∀ (s : String) (m : Nat) (pw : Bool) (e : String) (i : Nat),
      (m < (jsTrim s).toList.length →
        (truncateUnicode s m pw e).truncated = true) ∧
      (m < (jsTrim s).toList.length →
        ((jsTrim s).toList.take m)[i]? = some ' ' →
        (∀ j, j < ((jsTrim s).toList.take m).length → i < j →
          ((jsTrim s).toList.take m)[j]? ≠ some ' ') →
        pw = true →
        5 * (utf16Len (((jsTrim s).toList.take m).take i) : Int) > 3 * (m : Int) →
        (truncateUnicode s m pw e).text
          = String.mk (((jsTrim s).toList.take m).take i) ++ e) ∧
      (m < (jsTrim s).toList.length →
        (pw = true → ∀ j, j < ((jsTrim s).toList.take m).length →
          ((jsTrim s).toList.take m)[j]? = some ' ' →
          (∀ k, k < ((jsTrim s).toList.take m).length → j < k →
            ((jsTrim s).toList.take m)[k]? ≠ some ' ') →
          5 * (utf16Len (((jsTrim s).toList.take m).take j) : Int) ≤ 3 * (m : Int)) →
        (truncateUnicode s m pw e).text
          = String.mk ((jsTrim s).toList.take m) ++ e) ∧
      truncateUnicode "Привет мир" 5 true "…"
        = { text := "Приве…", truncated := true } ∧
      truncateUnicode "𝕏𝕏 abcdef" 5 true "…"
        = { text := "𝕏𝕏…", truncated := true } := by
  intro s m pw e i
  refine ⟨?_, ?_, ?_, by decide, by decide⟩
  · intro h
    rw [truncateUnicode_of_overflow s m pw e h]
  · intro h hchar hno hpw hgt
    rw [truncateUnicode_of_overflow s m pw e h]
    have hlast : lastIndexOfChar ' ' ((jsTrim s).toList.take m) = (i : Int) :=
      lastIndexOfChar_eq_of ' ' _ i hchar hno
    rw [hlast]
    rw [if_pos (by omega : (i : Int) ≥ 0)]
    simp only [Int.toNat_natCast]
    rw [if_pos ⟨hpw, hgt⟩]
  · intro h hyp
    rw [truncateUnicode_of_overflow s m pw e h]
    rw [if_neg ?_]
    rcases hpw : pw with _ | _
    · rintro ⟨h1, _⟩
      exact Bool.false_ne_true h1
    · by_cases hmem : ' ' ∈ (jsTrim s).toList.take m
      · rcases exists_lastIndexOfChar_of_mem ' ' _ hmem with ⟨j, hlj, hjchar, hjno⟩
        rcases List.getElem?_eq_some_iff.mp hjchar with ⟨hjlen, _⟩
        have hle := hyp hpw j hjlen hjchar hjno
        rintro ⟨_, hgt⟩
        rw [hlj, if_pos (by omega : (j : Int) ≥ 0), Int.toNat_natCast] at hgt
        omega
      · rw [lastIndexOfChar_of_not_mem ' ' _ hmem]
        rintro ⟨_, hgt⟩
        rw [if_neg (by omega : ¬ (-1 : Int) ≥ 0)] at hgt
        omega

/-- C8 counterexample.  Two independent failures of the claim's back-off
condition, "the space is no earlier than 60% into the budget".  First, the
comparison is strict: for budget 5 the space of `abc defgh` sits at index
3, exactly at 60% (`5 * 3 ≥ 3 * 5`), so the claim predicts the back-off
text `abc…`, but the source compares `lastSpace > maxChars * 0.6` strictly
and keeps the hard cutoff `abc d…`.  Second, the position is measured in
UTF-16 code units while the budget counts code points: in `𝕏𝕏 abcdef` at
budget 5 the space sits at code-point index 2, earlier than 60%
(`5 * 2 < 3 * 5`), so the claim predicts the hard cutoff `𝕏𝕏 ab…`, but
each `𝕏` is a surrogate pair, the space's unit index is 4 > 3, and the
program backs off to `𝕏𝕏…`. -/
theorem truncate_sixty_percent_boundary_counterexample :
    lastIndexOfChar ' ' ((jsTrim "abc defgh").toList.take 5) = 3 ∧
    5 * (3 : Int) ≥ 3 * 5 ∧
    (truncateUnicode "abc defgh" 5 true "…").text = "abc d…" ∧
    "abc d…" ≠ String.mk (((jsTrim "abc defgh").toList.take 5).take 3) ++ "…" ∧
    lastIndexOfChar ' ' ((jsTrim "𝕏𝕏 abcdef").toList.take 5) = 2 ∧
    5 * (2 : Int) < 3 * 5 ∧
    utf16Len (((jsTrim "𝕏𝕏 abcdef").toList.take 5).take 2) = 4 ∧
    (truncateUnicode "𝕏𝕏 abcdef" 5 true "…").text = "𝕏𝕏…" ∧
    "𝕏𝕏…" ≠ String.mk ((jsTrim "𝕏𝕏 abcdef").toList.take 5) ++ "…" := by
  decide

/-- Witness for the amended truncation theorem: a back-off case (space at
code-point and unit index 6 of an 8-code-point budget, strictly past 60%)
and a hard-cutoff case (no space at all). -/
theorem truncate_structure_amended_witness :
    (truncateUnicode "abcdef gh" 8 true "…").text
      = String.mk (((jsTrim "abcdef gh").toList.take 8).take 6) ++ "…" ∧
    (truncateUnicode "abcdef" 3 true "…").text
      = String.mk ((jsTrim "abcdef").toList.take 3) ++ "…" := by
  constructor
  · exact ((truncate_structure_amended "abcdef gh" 8 true "…" 6).2.1)
      (by decide) (by decide) (by decide) rfl (by decide)
  · exact ((truncate_structure_amended "abcdef" 3 true "…" 0).2.2.1)
      (by decide) (by decide)

/-- C10.  An input whose trimmed form fits the budget is returned trimmed
and unchanged with the flag off; a longer input comes back flagged, as a
kept prefix of at most `maxChars` code points with exactly one ellipsis
code point appended, so the text length can reach `maxChars + 1` — one
more than the budget, attained by the final conjunct. -/
theorem truncate_budget_and_ellipsis :
    (∀ (s : String) (m : Nat) (pw : Bool),
      ((jsTrim s).toList.length ≤ m →
        truncateUnicode s m pw "…" = { text := jsTrim s, truncated := false }) ∧
      (m < (jsTrim s).toList.length →
        (truncateUnicode s m pw "…").truncated = true ∧
        (∃ kept : List Char, kept.length ≤ m ∧
          (truncateUnicode s m pw "…").text = String.mk kept ++ "…") ∧
        (truncateUnicode s m pw "…").text.toList.length ≤ m + 1)) ∧
    (truncateUnicode "abcdef" 5 true "…").text.toList.length = 5 + 1 := by
  refine ⟨?_, by decide⟩
  intro s m pw
  constructor
  · intro h
    by_cases hempty : jsTrim s = ""
    · rw [truncateUnicode, if_pos hempty, hempty]
    · rw [truncateUnicode, if_neg hempty, if_pos h]
  · intro h
    rw [truncateUnicode_of_overflow s m pw "…" h]
    set kept := (if pw = true ∧
        5 * (if lastIndexOfChar ' ' ((jsTrim s).toList.take m) ≥ 0
             then (utf16Len (((jsTrim s).toList.take m).take
                (lastIndexOfChar ' ' ((jsTrim s).toList.take m)).toNat) : Int)
             else -1) > 3 * (m : Int)
      then ((jsTrim s).toList.take m).take
          (lastIndexOfChar ' ' ((jsTrim s).toList.take m)).toNat
      else (jsTrim s).toList.take m) with hkept
    have hsliced : ((jsTrim s).toList.take m).length ≤ m := by
      simp [List.length_take]
    have hlen : kept.length ≤ m := by
      rw [hkept]
      by_cases hc : pw = true ∧
          5 * (if lastIndexOfChar ' ' ((jsTrim s).toList.take m) ≥ 0
               then (utf16Len (((jsTrim s).toList.take m).take
                  (lastIndexOfChar ' ' ((jsTrim s).toList.take m)).toNat) : Int)
               else -1) > 3 * (m : Int)
      · rw [if_pos hc]
        exact le_trans (by simp [List.length_take]) hsliced
      · rw [if_neg hc]
        exact hsliced
    have htext : (String.mk kept ++ "…").toList = kept ++ ['…'] := rfl
    refine ⟨rfl, ⟨kept, hlen, rfl⟩, ?_⟩
    simp only [htext, List.length_append, List.length_singleton]
    omega

/-- Witness for the truncation budget theorem: a short input is returned
unchanged, a long one is flagged as truncated. -/
theorem truncate_budget_and_ellipsis_witness :
    truncateUnicode "hi" 5 true "…" = { text := jsTrim "hi", truncated := false } ∧
    (truncateUnicode "abcdef" 3 true "…").truncated = true := by
  constructor
  · exact (truncate_budget_and_ellipsis.1 "hi" 5 true).1 (by decide)
  · exact ((truncate_budget_and_ellipsis.1 "abcdef" 3 true).2 (by decide)).1

/-- A raw record with all six mandatory fields and a numeric `size_mb`. -/
def rawSized : JSValue :=
  .obj [("id", .str "i"), ("name", .str "n"), ("description", .str "d"),
        ("status", .str "s"), ("release_date", .str "r"),
        ("original_author", .str "a"), ("size_mb", .num (.finite 5))]

/-- The normalized record `rawSized` produces (under a failing host date
parser). -/
def itemSized : NormalizedMod :=
  { id := "i", name := "n", description := "d", status := "s",
    release_date := "r", releaseDateMs := none, original_author := "a",
    imageUrl := "", downloadUrl := "", source_url := "", mirrors := [],
    tags := [], warnings := [], size_mb := some 5, _haystack := "n | d | a" }

/-- Witness for the `size_mb` coercion theorem at a concrete record with a
native finite number. -/
theorem size_mb_coercion_witness :
    itemSized.size_mb = sizeMbOfSpec (getProp rawSized "size_mb") :=
  size_mb_coercion (fun _ => none) rawSized itemSized (by decide)
